import Mathlib

/-!
Verification of the hermes repository's natural-language specification
against a shallow embedding of its Python sources.

Conventions of the embedding:

* A polars column is a `List` of cell values; a nullable column is a
  `List (Option _)`.  All columns of one frame have the same length, so a
  frame is passed around as its relevant columns plus, where a theorem
  needs it, an equal-length hypothesis.
* Machine floats are embedded as `ℚ`.  Every theorem that divides assumes
  the OHLC positivity invariant that the ingestion layer enforces
  ("all OHLC strictly positive"), so the IEEE special values (inf/NaN)
  that `fill_nan` guards against cannot arise and exact rational
  arithmetic coincides with the float pipeline up to rounding.
* `polars` version note: the sources use the `min_samples` keyword of
  `ewm_mean` and `group_by_dynamic`, which pins polars >= 1.0.  In that
  version line a null predicate in `when/then/otherwise` propagates null
  to the output (it does not fall through to the `otherwise` branch), and
  comparisons with a null operand are null.  The embedding follows those
  semantics.
-/

namespace Hermes

/-- Model of a polars `shift(1)` on a nullable column: the first cell
becomes null, the last cell is dropped, length is preserved. -/
def shift1 {α : Type} (xs : List (Option α)) : List (Option α) :=
  (none :: xs).take xs.length

/-- Model of `shift(1).fill_null(0)` as used by the vector engine to turn
the signal column into the position column (engine/core.py line 70-72). -/
def shiftFill (xs : List (Option ℚ)) : List ℚ :=
  (shift1 xs).map (fun o => o.getD 0)

/-- Model of polars `forward_fill`, written with the carried last
non-null value explicit: each null cell takes the closest non-null value
above it, if any. -/
def forwardFillFrom {α : Type} (carry : Option α) : List (Option α) → List (Option α)
  | [] => []
  | x :: xs =>
    let cell := x.orElse (fun _ => carry)
    cell :: forwardFillFrom cell xs

/-- Model of `fill_null(d)` on a nullable column. -/
def fillNull {α : Type} (d : α) (xs : List (Option α)) : List α :=
  xs.map (fun o => o.getD d)

/-- Model of polars `cum_prod`: running product of the column. -/
def cumProd (xs : List ℚ) : List ℚ :=
  (xs.scanl (· * ·) 1).tail

namespace BacktestEngine

/-- Close-to-close market return column (engine/core.py lines 62-68):
`close / close.shift(1) - 1`, with the first cell (a shift artifact) and
any NaN coerced to 0 by `fill_nan(0.0).fill_null(0.0)`.  Under the data
invariant `close > 0` no NaN/inf arises and the rational division below
agrees with the float pipeline; rational division by zero returning 0 is
never exercised by the theorems, which assume positive closes. -/
def marketReturnsFrom (prev : ℚ) : List ℚ → List ℚ
  | [] => []
  | c :: rest => (c / prev - 1) :: marketReturnsFrom c rest

/-- Market return column for a whole close column; cell 0 is coerced to 0. -/
def marketReturns : List ℚ → List ℚ
  | [] => []
  | c :: rest => 0 :: marketReturnsFrom c rest

/-- Result frame columns added by `BacktestEngine.run` (engine/core.py). -/
structure RunResult where
  market_return : List ℚ
  position : List ℚ
  strategy_return : List ℚ
  equity : List ℚ
  deriving Repr, DecidableEq

/-- Model of `BacktestEngine.run` (engine/core.py lines 62-90).  The
strategy has already produced the (possibly nullable) `signal` column of
the same frame, so the function takes the `close` and `signal` columns:
`market_return = close/close.shift(1) - 1` (nulls/NaN to 0),
`position = signal.shift(1).fill_null(0)`,
`strategy_return = position * market_return` (nulls/NaN to 0),
`equity = initial_cash * (1 + strategy_return).cum_prod()`. -/
def run (initial_cash : ℚ) (close : List ℚ) (signal : List (Option ℚ)) : RunResult :=
  let mr := marketReturns close
  let pos := shiftFill signal
  let sr := pos.zipWith (· * ·) mr
  let eq := (cumProd (sr.map (1 + ·))).map (initial_cash * ·)
  { market_return := mr, position := pos, strategy_return := sr, equity := eq }

end BacktestEngine

theorem shift1_length {α : Type} (xs : List (Option α)) :
    (shift1 xs).length = xs.length := by
  simp [shift1]

theorem shiftFill_length (xs : List (Option ℚ)) :
    (shiftFill xs).length = xs.length := by
  simp [shiftFill, shift1_length]

theorem shift1_get?_zero {α : Type} (xs : List (Option α)) (h : xs ≠ []) :
    (shift1 xs).get? 0 = some none := by
  cases xs with
  | nil => simp at h
  | cons x xs => simp [shift1]

theorem shift1_get?_succ {α : Type} (xs : List (Option α)) (T : ℕ)
    (h : T + 1 < xs.length) :
    (shift1 xs).get? (T + 1) = xs.get? T := by
  simp only [shift1]
  rw [List.get?_take (by omega)]
  simp only [List.get?_cons_succ]

/-- C1: in every vector-engine run the derived position column satisfies
`position[0] = 0` whenever the frame is non-empty (no execution path of
`BacktestEngine.run` can make it anything else), and for every bar
`T > 0` the position equals the previous bar's signal value. -/
theorem position_is_lagged_signal (initial_cash : ℚ) (close : List ℚ)
    (signal : List (Option ℚ)) (hne : signal ≠ []) :
    (BacktestEngine.run initial_cash close signal).position.get? 0 = some 0 ∧
    ∀ T s, 0 < T → T < signal.length → signal.get? (T - 1) = some (some s) →
      (BacktestEngine.run initial_cash close signal).position.get? T = some s := by
  constructor
  · simp only [BacktestEngine.run, shiftFill, List.get?_map]
    rw [shift1_get?_zero signal hne]
    rfl
  · intro T s hT hTlen hsig
    simp only [BacktestEngine.run, shiftFill, List.get?_map]
    obtain ⟨T', rfl⟩ : ∃ T', T = T' + 1 := ⟨T - 1, by omega⟩
    rw [shift1_get?_succ signal T' hTlen]
    simp only [Nat.add_sub_cancel] at hsig
    rw [hsig]
    rfl

/-- Closed witness for `position_is_lagged_signal` at a concrete frame. -/
theorem position_is_lagged_signal_wit :
    (BacktestEngine.run 100 [5, 6] [some 1, some 0]).position.get? 0 = some 0 ∧
    (BacktestEngine.run 100 [5, 6] [some 1, some 0]).position.get? 1 = some 1 := by
  refine ⟨(position_is_lagged_signal 100 [5, 6] [some 1, some 0] (by simp)).1, ?_⟩
  exact (position_is_lagged_signal 100 [5, 6] [some 1, some 0] (by simp)).2
    1 1 (by omega) (by simp) (by simp)

theorem scanl_mul_get? (a : ℚ) (xs : List ℚ) (T : ℕ) (hT : T < xs.length + 1) :
    (xs.scanl (· * ·) a).get? T = some (a * (xs.take T).prod) := by
  induction xs generalizing a T with
  | nil =>
    obtain rfl : T = 0 := by simpa using hT
    simp
  | cons x rest ih =>
    cases T with
    | zero => simp
    | succ S =>
      simp only [List.scanl, List.get?_cons_succ, List.take, List.prod_cons]
      rw [ih (a * x) S (by simpa using hT)]
      ring_nf

theorem cumProd_get? (xs : List ℚ) (T : ℕ) (hT : T < xs.length) :
    (cumProd xs).get? T = some ((xs.take (T + 1)).prod) := by
  cases xs with
  | nil => simp at hT
  | cons x rest =>
    simp only [cumProd, List.scanl, List.tail_cons, List.take, List.prod_cons]
    rw [scanl_mul_get? (1 * x) rest T (by simpa using hT)]
    ring_nf

theorem marketReturnsFrom_length (prev : ℚ) (xs : List ℚ) :
    (BacktestEngine.marketReturnsFrom prev xs).length = xs.length := by
  induction xs generalizing prev with
  | nil => rfl
  | cons x rest ih => simp [BacktestEngine.marketReturnsFrom, ih]

theorem marketReturnsFrom_get? (prev : ℚ) (xs : List ℚ) (k : ℕ) (hk : k < xs.length) :
    (BacktestEngine.marketReturnsFrom prev xs).get? k =
      some (xs.getD k 0 / (if k = 0 then prev else xs.getD (k - 1) 0) - 1) := by
  induction xs generalizing prev k with
  | nil => simp at hk
  | cons x rest ih =>
    cases k with
    | zero => simp [BacktestEngine.marketReturnsFrom]
    | succ S =>
      simp only [BacktestEngine.marketReturnsFrom, List.get?_cons_succ]
      rw [ih x S (by simpa using hk)]
      cases S with
      | zero => simp
      | succ S' => simp

/-- C3: `BacktestEngine.run` computes the market return as
`close[k]/close[k-1] - 1` with the null first cell coerced to 0, the
strategy return as `position * market_return`, and the equity as
`initial_cash` times the running product of `1 + strategy_return`;
on the S1 scenario (cash 100000, closes `[100, 110, 121, 133.1]`,
constant signal 1) the position column is `[0, 1, 1, 1]` and the final
equity is exactly 133100. -/
theorem engine_equity_formula (initial_cash : ℚ) (close : List ℚ)
    (signal : List (Option ℚ)) (hpos : ∀ c ∈ close, 0 < c) :
    (∀ k, 0 < k → k < close.length →
      (BacktestEngine.run initial_cash close signal).market_return.get? k =
        some (close.getD k 0 / close.getD (k - 1) 0 - 1)) ∧
    ((BacktestEngine.run initial_cash close signal).market_return.get? 0 =
      if close = [] then none else some 0) ∧
    ((BacktestEngine.run initial_cash close signal).strategy_return =
      ((BacktestEngine.run initial_cash close signal).position).zipWith (· * ·)
        ((BacktestEngine.run initial_cash close signal).market_return)) ∧
    (∀ T, T < (BacktestEngine.run initial_cash close signal).strategy_return.length →
      (BacktestEngine.run initial_cash close signal).equity.get? T =
        some (initial_cash *
          ((((BacktestEngine.run initial_cash close signal).strategy_return.take
              (T + 1)).map (1 + ·)).prod))) ∧
    (BacktestEngine.run 100000 [100, 110, 121, 1331 / 10]
      (List.replicate 4 (some 1))).position = [0, 1, 1, 1] ∧
    (BacktestEngine.run 100000 [100, 110, 121, 1331 / 10]
      (List.replicate 4 (some 1))).equity.getLast? = some 133100 := by
  refine ⟨?_, ?_, rfl, ?_, by norm_num [BacktestEngine.run, shiftFill, shift1,
      List.replicate], ?_⟩
  · intro k hk hklen
    obtain ⟨j, rfl⟩ : ∃ j, k = j + 1 := ⟨k - 1, by omega⟩
    cases close with
    | nil => simp at hklen
    | cons c rest =>
      simp only [BacktestEngine.run, BacktestEngine.marketReturns, List.get?_cons_succ]
      rw [marketReturnsFrom_get? c rest j (by simpa using hklen)]
      cases j with
      | zero => simp
      | succ j' => simp
  · cases close with
    | nil => simp [BacktestEngine.run, BacktestEngine.marketReturns]
    | cons c rest => simp [BacktestEngine.run, BacktestEngine.marketReturns]
  · intro T hT
    simp only [BacktestEngine.run] at hT ⊢
    rw [List.get?_map, cumProd_get? _ T (by simpa using hT), List.map_take]
    rfl
  · norm_num [BacktestEngine.run, BacktestEngine.marketReturns,
      BacktestEngine.marketReturnsFrom, shiftFill, shift1, cumProd,
      List.replicate, List.scanl, List.getLast?]

/-- Closed witness for `engine_equity_formula` at a concrete frame with
positive closes. -/
theorem engine_equity_formula_wit :
    (∀ c ∈ ([2, 4] : List ℚ), 0 < c) ∧
    (BacktestEngine.run 1 [2, 4] [some 1, some 1]).market_return.get? 1 =
      some (([2, 4] : List ℚ).getD 1 0 / ([2, 4] : List ℚ).getD 0 0 - 1) :=
  ⟨by norm_num,
    (engine_equity_formula 1 [2, 4] [some 1, some 1] (by norm_num)).1 1
      (by omega) (by norm_num)⟩

/-- Model of a polars backward `join_asof` lookup for one left-hand
timestamp `m`: the value of the last right-hand row whose timestamp is
`<= m`, or null when there is none (engine/mtf_utils.py lines 60-66 and
services/backtest_service.py lines 96-102; polars requires the right
frame sorted by timestamp, under which `getLast?` of the filtered rows is
exactly the backward match). -/
def asofLookup {α : Type} (rows : List (ℤ × α)) (m : ℤ) : Option α :=
  ((rows.filter (fun r => decide (r.1 ≤ m))).getLast?).map Prod.snd

/-- Model of the MTF broadcast of one column (services/backtest_service.py
lines 84-102): the analysis-frame column `vals` (timestamps `ats`) is
shifted by one analysis bar and then as-of joined backward onto an
execution timestamp `m`.  The outer option of the lookup (no match) and
the inner option (null cell) both render as a null cell of the joined
execution frame. -/
def broadcastJoin (ats : List ℤ) (vals : List (Option ℚ)) (m : ℤ) : Option ℚ :=
  Option.join (asofLookup (ats.zip (shift1 vals)) m)

/-- Position column of the full MTF vector pipeline: broadcast the
analysis signal column onto the execution timestamps, then apply the
engine's `signal.shift(1).fill_null(0)` (services/backtest_service.py
followed by engine/core.py). -/
def mtfPosition (ats : List ℤ) (vals : List (Option ℚ)) (ets : List ℤ) : List ℚ :=
  shiftFill (ets.map (broadcastJoin ats vals))

theorem filter_eq_of_agree_off {α : Type} (p : α → Bool) :
    ∀ (xs ys : List α) (i0 : ℕ), xs.length = ys.length →
    (∀ i, i ≠ i0 → xs.get? i = ys.get? i) →
    (∀ x, xs.get? i0 = some x → p x = false) →
    (∀ y, ys.get? i0 = some y → p y = false) →
    xs.filter p = ys.filter p
  | [], [], _, _, _, _, _ => rfl
  | [], y :: ys, i0, hlen, _, _, _ => by simp at hlen
  | x :: xs, [], i0, hlen, _, _, _ => by simp at hlen
  | x :: xs, y :: ys, 0, hlen, hagree, hpx, hpy => by
    have hx : p x = false := hpx x rfl
    have hy : p y = false := hpy y rfl
    have htail : xs = ys := by
      apply List.ext_get?
      intro i
      have := hagree (i + 1) (by omega)
      simpa using this
    subst htail
    simp [List.filter, hx, hy]
  | x :: xs, y :: ys, k + 1, hlen, hagree, hpx, hpy => by
    have hxy : x = y := by
      have := hagree 0 (by omega)
      simpa using this
    subst hxy
    have htail : xs.filter p = ys.filter p := by
      refine filter_eq_of_agree_off p xs ys k (by simpa using hlen) ?_ ?_ ?_
      · intro i hi
        have := hagree (i + 1) (by omega)
        simpa using this
      · intro a ha
        exact hpx a (by simpa using ha)
      · intro a ha
        exact hpy a (by simpa using ha)
    simp only [List.filter]
    cases p x <;> simp [htail]

theorem shift1_agree_off {α : Type} (vals vals' : List (Option α)) (j : ℕ)
    (hlen' : vals'.length = vals.length)
    (hagree : ∀ i, i ≠ j → vals.get? i = vals'.get? i) :
    ∀ i, i ≠ j + 1 → (shift1 vals).get? i = (shift1 vals').get? i := by
  intro i hi
  cases i with
  | zero =>
    rcases List.eq_nil_or_concat vals with hnil | _
    · have hnil' : vals' = [] := List.eq_nil_of_length_eq_zero (by simp [hlen', hnil])
      simp [hnil, hnil', shift1]
    · have hne : vals ≠ [] := by
        rintro rfl
        simp_all
      have hne' : vals' ≠ [] := by
        intro h
        exact hne (List.eq_nil_of_length_eq_zero (by simp [← hlen', h]))
      rw [shift1_get?_zero vals hne, shift1_get?_zero vals' hne']
  | succ i' =>
    by_cases h : i' + 1 < vals.length
    · rw [shift1_get?_succ vals i' h, shift1_get?_succ vals' i' (by omega)]
      exact hagree i' (by omega)
    · rw [List.get?_eq_none.2 (by rw [shift1_length]; omega),
        List.get?_eq_none.2 (by rw [shift1_length]; omega)]

theorem zip_get?_eq {α β : Type} (l₁ : List α) (l₂ : List β) (i : ℕ) :
    (l₁.zip l₂).get? i =
      ((l₁.get? i).map Prod.mk).bind fun g => (l₂.get? i).map g :=
  List.get?_zipWith' Prod.mk l₁ l₂ i

theorem getD_of_get? {α : Type} {l : List α} {i : ℕ} {d x : α}
    (h : l.get? i = some x) : l.getD i d = x := by
  rw [List.getD_eq_getElem?_getD, ← List.get?_eq_getElem?, h]
  rfl

theorem broadcastJoin_agree (tf : ℤ) (ats : List ℤ)
    (hgap : ∀ i, i + 1 < ats.length → ats.getD i 0 + tf ≤ ats.getD (i + 1) 0)
    (vals vals' : List (Option ℚ)) (hlen' : vals'.length = vals.length)
    (j : ℕ) (hagree : ∀ i, i ≠ j → vals.get? i = vals'.get? i)
    (m : ℤ) (hm : m < ats.getD j 0 + tf) :
    broadcastJoin ats vals m = broadcastJoin ats vals' m := by
  have key : (ats.zip (shift1 vals)).filter (fun r => decide (r.1 ≤ m)) =
      (ats.zip (shift1 vals')).filter (fun r => decide (r.1 ≤ m)) := by
    refine filter_eq_of_agree_off _ _ _ (j + 1) ?_ ?_ ?_ ?_
    · simp [List.length_zip, shift1_length, hlen']
    · intro i hi
      rw [zip_get?_eq, zip_get?_eq, shift1_agree_off vals vals' j hlen' hagree i hi]
    · intro x hx
      obtain ⟨h1, -⟩ := (List.get?_zip_eq_some _ _ _ _).mp hx
      obtain ⟨hjlt, -⟩ := List.get?_eq_some.mp h1
      have hval : ats.getD (j + 1) 0 = x.1 := getD_of_get? h1
      have := hgap j hjlt
      have hxm : ¬ x.1 ≤ m := by omega
      simpa using hxm
    · intro x hx
      obtain ⟨h1, -⟩ := (List.get?_zip_eq_some _ _ _ _).mp hx
      obtain ⟨hjlt, -⟩ := List.get?_eq_some.mp h1
      have hval : ats.getD (j + 1) 0 = x.1 := getD_of_get? h1
      have := hgap j hjlt
      have hxm : ¬ x.1 ≤ m := by omega
      simpa using hxm
  simp only [broadcastJoin, asofLookup, key]

/-- C2: in the MTF vector pipeline every broadcast column is shifted by
one analysis bar before the backward as-of join, so the signal computed
on the analysis bar labeled `H = ats[j]` cannot affect the position of
any execution bar whose timestamp is `< H + tf`: changing that signal
cell (and nothing else) leaves the position of every such execution bar
unchanged. -/
theorem mtf_no_lookahead (tf : ℤ) (htf : 0 < tf) (ats : List ℤ)
    (hgap : ∀ i, i + 1 < ats.length → ats.getD i 0 + tf ≤ ats.getD (i + 1) 0)
    (vals vals' : List (Option ℚ)) (hlen' : vals'.length = vals.length)
    (j : ℕ) (hj : j < ats.length)
    (hagree : ∀ i, i ≠ j → vals.get? i = vals'.get? i)
    (ets : List ℤ) (hets : ets.Chain' (· ≤ ·))
    (T : ℕ) (hT : T < ets.length)
    (hbefore : ets.getD T 0 < ats.getD j 0 + tf) :
    (mtfPosition ats vals ets).get? T = (mtfPosition ats vals' ets).get? T := by
  cases T with
  | zero =>
    have hne : ets ≠ [] := by
      rintro rfl
      simp at hT
    have hne1 : ets.map (broadcastJoin ats vals) ≠ [] := by simpa using hne
    have hne2 : ets.map (broadcastJoin ats vals') ≠ [] := by simpa using hne
    simp only [mtfPosition, shiftFill, List.get?_map]
    rw [shift1_get?_zero _ hne1, shift1_get?_zero _ hne2]
  | succ S =>
    simp only [mtfPosition, shiftFill, List.get?_map]
    rw [shift1_get?_succ _ S (by simpa using hT), shift1_get?_succ _ S (by simpa using hT),
      List.get?_map, List.get?_map]
    have hS : S < ets.length := by omega
    have hgetS : ets.get? S = some (ets.get ⟨S, hS⟩) := List.get?_eq_get hS
    rw [hgetS]
    have hmono : ets.get ⟨S, hS⟩ ≤ ets.get ⟨S + 1, hT⟩ :=
      List.chain'_iff_get.mp hets S (by omega)
    have hTd : ets.getD (S + 1) 0 = ets.get ⟨S + 1, hT⟩ :=
      getD_of_get? (List.get?_eq_get hT)
    have hm : ets.get ⟨S, hS⟩ < ats.getD j 0 + tf := by omega
    simp only [Option.map_some']
    rw [broadcastJoin_agree tf ats hgap vals vals' hlen' j hagree _ hm]

/-- Closed witness for `mtf_no_lookahead`: hourly analysis bars at
minutes 600 and 660, a signal change on the 660 bar, and the execution
bar at minute 690 (before 660 + 60 = 720). -/
theorem mtf_no_lookahead_wit :
    (mtfPosition [600, 660] [some 1, some 1] [600, 630, 660, 690]).get? 3 =
      (mtfPosition [600, 660] [some 1, some 0] [600, 630, 660, 690]).get? 3 := by
  refine mtf_no_lookahead 60 (by norm_num) [600, 660] ?_ [some 1, some 1]
    [some 1, some 0] (by simp) 1 (by simp) ?_ [600, 630, 660, 690]
    (by norm_num [List.chain'_cons, List.chain'_singleton]) 3 (by simp) (by decide)
  · intro i hi
    simp only [List.length_cons, List.length_nil] at hi
    obtain rfl : i = 0 := by omega
    decide
  · intro i hi
    cases i with
    | zero => rfl
    | succ i' =>
      cases i' with
      | zero => exact absurd rfl hi
      | succ i'' => rfl

/-- Deduplication on the timestamp key as performed by
`df.unique(subset=["timestamp"])` in `LocalFileSink.write`
(sinks/local.py line 47).  polars does not specify which duplicate row
survives; the embedding determinizes it as keep-first, which is one
admissible refinement and the one the spec's `dedup_by_timestamp`
denotes.  A row is a timestamp paired with the remaining columns,
abstracted as `α`. -/
def dedupByTs {α : Type} : List (ℤ × α) → List (ℤ × α)
  | [] => []
  | r :: rest => r :: dedupByTs (rest.filter (fun s => decide (s.1 ≠ r.1)))
termination_by l => l.length
decreasing_by
  simp only [List.length_cons]
  exact Nat.lt_succ_of_le (List.length_filter_le _ _)

/-- Ascending sort on the timestamp key, as `sort("timestamp")`. -/
def sortByTs {α : Type} (rows : List (ℤ × α)) : List (ℤ × α) :=
  rows.mergeSort (fun a b => decide (a.1 ≤ b.1))

/-- Model of `LocalFileSink.write` for one symbol (sinks/local.py lines
34-53): concatenate the stored frame (empty when the file does not yet
exist) with the incoming chunk, deduplicate on timestamp, sort ascending,
store the result. -/
def writeMerge {α : Type} (stored chunk : List (ℤ × α)) : List (ℤ × α) :=
  sortByTs (dedupByTs (stored ++ chunk))

/-- Stored state after a sequence of `write` calls for one symbol,
starting from an absent file. -/
def writeAll {α : Type} (chunks : List (List (ℤ × α))) : List (ℤ × α) :=
  chunks.foldl writeMerge []

/-- Predicate picking the rows with a given timestamp key. -/
def keyIs {α : Type} (k : ℤ) (s : ℤ × α) : Bool :=
  decide (s.1 = k)

theorem dedupByTs_nil {α : Type} : dedupByTs ([] : List (ℤ × α)) = [] := by
  simp only [dedupByTs]

theorem dedupByTs_cons {α : Type} (x : ℤ × α) (rest : List (ℤ × α)) :
    dedupByTs (x :: rest) =
      x :: dedupByTs (rest.filter (fun s => decide (s.1 ≠ x.1))) := by
  simp only [dedupByTs]

theorem mem_of_mem_dedupByTs {α : Type} (l : List (ℤ × α)) :
    ∀ r, r ∈ dedupByTs l → r ∈ l := by
  induction l using dedupByTs.induct with
  | case1 =>
    intro r hr
    rw [dedupByTs_nil] at hr
    exact absurd hr (List.not_mem_nil r)
  | case2 x rest ih =>
    intro r hr
    rw [dedupByTs_cons] at hr
    rcases List.mem_cons.mp hr with rfl | hmem
    · exact List.mem_cons_self _ _
    · exact List.mem_cons_of_mem _ (List.mem_of_mem_filter (ih r hmem))

theorem dedupByTs_pairwise_keys {α : Type} (l : List (ℤ × α)) :
    (dedupByTs l).Pairwise (fun a b => a.1 ≠ b.1) := by
  induction l using dedupByTs.induct with
  | case1 =>
    rw [dedupByTs_nil]
    exact List.Pairwise.nil
  | case2 x rest ih =>
    rw [dedupByTs_cons]
    refine List.pairwise_cons.mpr ⟨?_, ih⟩
    intro b hb
    have hbf := mem_of_mem_dedupByTs _ b hb
    have hne : b.1 ≠ x.1 := of_decide_eq_true (List.mem_filter.mp hbf).2
    exact hne.symm

theorem dedupByTs_nodup {α : Type} (l : List (ℤ × α)) : (dedupByTs l).Nodup :=
  (dedupByTs_pairwise_keys l).imp (fun h e => h (congrArg Prod.fst e))

theorem find?_filter_of_imp {α : Type} (p q : α → Bool)
    (h : ∀ a, p a = true → q a = true) :
    ∀ l : List α, (l.filter q).find? p = l.find? p := by
  intro l
  induction l with
  | nil => rfl
  | cons x rest ih =>
    cases hq : q x with
    | true =>
      rw [List.filter_cons_of_pos hq]
      cases hp : p x with
      | true => rw [List.find?_cons_of_pos _ hp, List.find?_cons_of_pos _ hp]
      | false =>
        rw [List.find?_cons_of_neg _ (by simp [hp]), ih,
          List.find?_cons_of_neg _ (by simp [hp])]
    | false =>
      have hp : p x = false := by
        cases hpx : p x
        · rfl
        · rw [h x hpx] at hq; cases hq
      rw [List.filter_cons_of_neg (by simp [hq]), ih,
        List.find?_cons_of_neg _ (by simp [hp])]

theorem mem_dedupByTs_iff {α : Type} (l : List (ℤ × α)) :
    ∀ r : ℤ × α, r ∈ dedupByTs l ↔ l.find? (keyIs r.1) = some r := by
  induction l using dedupByTs.induct with
  | case1 =>
    intro r
    rw [dedupByTs_nil]
    simp
  | case2 x rest ih =>
    intro r
    rw [dedupByTs_cons, List.mem_cons]
    by_cases hk : x.1 = r.1
    · rw [List.find?_cons_of_pos _ (by simp [keyIs, hk])]
      constructor
      · rintro (rfl | hmem)
        · rfl
        · exfalso
          have hne : r.1 ≠ x.1 :=
            of_decide_eq_true (List.mem_filter.mp (mem_of_mem_dedupByTs _ r hmem)).2
          exact hne hk.symm
      · intro hf
        exact Or.inl (Option.some.inj hf).symm
    · rw [List.find?_cons_of_neg _ (by simp [keyIs, hk])]
      have hfilter : (rest.filter (fun s => decide (s.1 ≠ x.1))).find? (keyIs r.1) =
          rest.find? (keyIs r.1) := by
        refine find?_filter_of_imp _ _ ?_ rest
        intro a ha
        have hak : a.1 = r.1 := of_decide_eq_true ha
        exact decide_eq_true (by rw [hak]; exact fun e => hk e.symm)
      constructor
      · rintro (rfl | hmem)
        · exact absurd rfl hk
        · rw [← hfilter]
          exact (ih r).mp hmem
      · intro hf
        exact Or.inr ((ih r).mpr (by rw [hfilter]; exact hf))

theorem find?_key_of_mem {α : Type} :
    ∀ l : List (ℤ × α), l.Pairwise (fun a b => a.1 ≠ b.1) →
      ∀ r : ℤ × α, r ∈ l → l.find? (keyIs r.1) = some r := by
  intro l
  induction l with
  | nil =>
    intro _ r hr
    exact absurd hr (List.not_mem_nil r)
  | cons x rest ih =>
    intro hl r hr
    rcases List.mem_cons.mp hr with rfl | hmem
    · exact List.find?_cons_of_pos _ (by simp [keyIs])
    · have hx : x.1 ≠ r.1 := (List.pairwise_cons.mp hl).1 r hmem
      rw [List.find?_cons_of_neg _ (by simp [keyIs]; exact fun e => hx e)]
      exact ih (List.pairwise_cons.mp hl).2 r hmem

theorem find?_key_eq_some_iff {α : Type} (l : List (ℤ × α))
    (hl : l.Pairwise (fun a b => a.1 ≠ b.1)) (k : ℤ) (r : ℤ × α) :
    l.find? (keyIs k) = some r ↔ r ∈ l ∧ r.1 = k := by
  constructor
  · intro h
    refine ⟨List.mem_of_find?_eq_some h, ?_⟩
    have := List.find?_some h
    simpa [keyIs] using this
  · rintro ⟨hmem, rfl⟩
    exact find?_key_of_mem l hl r hmem

theorem find?_key_of_perm {α : Type} {l₁ l₂ : List (ℤ × α)} (hperm : List.Perm l₁ l₂)
    (h₂ : l₂.Pairwise (fun a b => a.1 ≠ b.1)) (k : ℤ) :
    l₁.find? (keyIs k) = l₂.find? (keyIs k) := by
  have h₁ : l₁.Pairwise (fun a b => a.1 ≠ b.1) :=
    (hperm.pairwise_iff (fun h => h.symm)).mpr h₂
  cases hf : l₁.find? (keyIs k) with
  | some r =>
    obtain ⟨hmem, hk⟩ := (find?_key_eq_some_iff l₁ h₁ k r).mp hf
    exact ((find?_key_eq_some_iff l₂ h₂ k r).mpr ⟨hperm.mem_iff.mp hmem, hk⟩).symm
  | none =>
    rw [List.find?_eq_none] at hf
    exact (List.find?_eq_none.mpr (fun x hx => hf x (hperm.mem_iff.mpr hx))).symm

theorem find?_key_dedupByTs {α : Type} (l : List (ℤ × α)) (k : ℤ) :
    (dedupByTs l).find? (keyIs k) = l.find? (keyIs k) := by
  cases hf : l.find? (keyIs k) with
  | some r =>
    have hk : r.1 = k := by simpa [keyIs] using List.find?_some hf
    have hmem : r ∈ dedupByTs l := (mem_dedupByTs_iff l r).mpr (by rw [hk]; exact hf)
    exact (find?_key_eq_some_iff (dedupByTs l) (dedupByTs_pairwise_keys l) k r).mpr
      ⟨hmem, hk⟩
  | none =>
    rw [List.find?_eq_none] at hf
    exact List.find?_eq_none.mpr (fun x hx => hf x (mem_of_mem_dedupByTs l x hx))

theorem dedupByTs_append_perm {α : Type} (xs ys c : List (ℤ × α))
    (hfind : ∀ k, xs.find? (keyIs k) = ys.find? (keyIs k)) :
    List.Perm (dedupByTs (xs ++ c)) (dedupByTs (ys ++ c)) := by
  rw [List.perm_ext_iff_of_nodup (dedupByTs_nodup _) (dedupByTs_nodup _)]
  intro r
  rw [mem_dedupByTs_iff, mem_dedupByTs_iff, List.find?_append, List.find?_append,
    hfind r.1]

theorem sortByTs_eq_of_perm {α : Type} (A B : List (ℤ × α)) (hperm : List.Perm A B)
    (hA : A.Pairwise (fun a b => a.1 ≠ b.1)) : sortByTs A = sortByTs B := by
  have htrans : ∀ (a b c : ℤ × α),
      (fun a b : ℤ × α => decide (a.1 ≤ b.1)) a b →
      (fun a b : ℤ × α => decide (a.1 ≤ b.1)) b c →
      (fun a b : ℤ × α => decide (a.1 ≤ b.1)) a c := by
    intro a b c h1 h2
    simp only [decide_eq_true_eq] at h1 h2 ⊢
    omega
  have htotal : ∀ (a b : ℤ × α),
      ((fun a b : ℤ × α => decide (a.1 ≤ b.1)) a b ||
       (fun a b : ℤ × α => decide (a.1 ≤ b.1)) b a) = true := by
    intro a b
    simp only [Bool.or_eq_true, decide_eq_true_eq]
    omega
  have hB : B.Pairwise (fun a b => a.1 ≠ b.1) :=
    (hperm.pairwise_iff (fun h => h.symm)).mp hA
  have sortedStrict : ∀ (L : List (ℤ × α)), L.Pairwise (fun a b => a.1 ≠ b.1) →
      (sortByTs L).Pairwise (fun a b : ℤ × α => a.1 < b.1) := by
    intro L hL
    have hle : (sortByTs L).Pairwise (fun a b : ℤ × α => a.1 ≤ b.1) :=
      (List.sorted_mergeSort htrans htotal L).imp (fun h => by simpa using h)
    have hne : (sortByTs L).Pairwise (fun a b : ℤ × α => a.1 ≠ b.1) :=
      ((List.mergeSort_perm L _).pairwise_iff (fun h => h.symm)).mpr hL
    exact List.Pairwise.imp₂ (fun a b h1 h2 => lt_of_le_of_ne h1 h2) hle hne
  have hps : List.Perm (sortByTs A) (sortByTs B) :=
    ((List.mergeSort_perm A _).trans hperm).trans (List.mergeSort_perm B _).symm
  haveI : IsAntisymm (ℤ × α) (fun a b => a.1 < b.1) :=
    ⟨fun a b h1 h2 => absurd (lt_trans h1 h2) (lt_irrefl _)⟩
  exact List.eq_of_perm_of_sorted hps (sortedStrict A hA) (sortedStrict B hB)

theorem sortByTs_perm {α : Type} (L : List (ℤ × α)) :
    List.Perm (sortByTs L) L :=
  List.mergeSort_perm L _

theorem writeMerge_sorted_state {α : Type} (X c : List (ℤ × α)) :
    writeMerge (sortByTs (dedupByTs X)) c = sortByTs (dedupByTs (X ++ c)) := by
  unfold writeMerge
  refine sortByTs_eq_of_perm _ _ ?_ (dedupByTs_pairwise_keys _)
  refine dedupByTs_append_perm _ _ c ?_
  intro k
  rw [find?_key_of_perm (sortByTs_perm _) (dedupByTs_pairwise_keys X) k,
    find?_key_dedupByTs]

theorem dedupByTs_append_self_perm {α : Type} (Y f : List (ℤ × α))
    (hsub : ∀ r ∈ f, r ∈ Y) :
    List.Perm (dedupByTs (Y ++ f)) (dedupByTs Y) := by
  rw [List.perm_ext_iff_of_nodup (dedupByTs_nodup _) (dedupByTs_nodup _)]
  intro r
  rw [mem_dedupByTs_iff, mem_dedupByTs_iff, List.find?_append]
  cases hf : Y.find? (keyIs r.1) with
  | some s => simp
  | none =>
    rw [List.find?_eq_none] at hf
    have : f.find? (keyIs r.1) = none :=
      List.find?_eq_none.mpr (fun x hx => hf x (hsub x hx))
    simp [this]

/-- C4: for every symbol, running any finite sequence of sink writes
from an absent file leaves exactly
`sort(dedup_by_timestamp(concat(chunks)))` stored, and writing the same
frame twice (from any stored state) leaves the same state as writing it
once. -/
theorem sink_write_merge_law {α : Type} :
    (∀ chunks : List (List (ℤ × α)),
      writeAll chunks = sortByTs (dedupByTs chunks.flatten)) ∧
    (∀ stored f : List (ℤ × α),
      writeMerge (writeMerge stored f) f = writeMerge stored f) := by
  constructor
  · intro chunks
    induction chunks using List.reverseRecOn with
    | nil => simp [writeAll, sortByTs, dedupByTs_nil]
    | append_singleton chunks c ih =>
      rw [writeAll, List.foldl_append]
      simp only [List.foldl_cons, List.foldl_nil]
      rw [show chunks.foldl writeMerge [] = writeAll chunks from rfl, ih,
        writeMerge_sorted_state, List.flatten_append]
      simp
  · intro stored f
    have h1 : writeMerge (writeMerge stored f) f =
        sortByTs (dedupByTs ((stored ++ f) ++ f)) :=
      writeMerge_sorted_state (stored ++ f) f
    rw [h1, writeMerge]
    refine sortByTs_eq_of_perm _ _ ?_ (dedupByTs_pairwise_keys _)
    exact dedupByTs_append_self_perm (stored ++ f) f
      (fun r hr => List.mem_append.mpr (Or.inr hr))

/-- Outcome of one HTTP attempt inside `ZerodhaSource._fetch_chunk`
(sources/zerodha.py lines 146-191), as seen by the retry loop:
a parsed JSON response (`status == "success"` flag plus the candle rows),
an HTTP 400, an HTTP 429, any other error status (for which
`response.raise_for_status()` raises `aiohttp.ClientResponseError`, a
subclass of `aiohttp.ClientError`), or a transport-level
`aiohttp.ClientError`. -/
inductive HttpResp (α : Type) where
  | json (apiSuccess : Bool) (candles : List α)
  | http400
  | http429
  | httpFail (code : ℕ)
  | transport
  deriving Repr, DecidableEq

/-- Model of the `for attempt in range(3)` retry loop of `_fetch_chunk`.
`fuel` is the number of attempts left, `a` the current attempt index and
the list supplies the response each attempt would observe.  The result is
the returned value (`some candles`, `some []` for the HTTP-400 no-data
marker, `none` for give-up / API-level error) paired with the trace of
back-off sleep durations in seconds. -/
def fetchChunkGo {α : Type} : ℕ → ℕ → List (HttpResp α) → Option (List α) × List ℕ
  | 0, _, _ => (none, [])
  | _ + 1, _, [] => (none, [])
  | fuel + 1, a, r :: rest =>
    match r with
    | .json true cs => (some cs, [])
    | .json false _ => (none, [])
    | .http400 => (some [], [])
    | .http429 =>
      let res := fetchChunkGo fuel (a + 1) rest
      (res.1, 2 * (a + 1) :: res.2)
    | .httpFail _ =>
      let res := fetchChunkGo fuel (a + 1) rest
      (res.1, 1 * (a + 1) :: res.2)
    | .transport =>
      let res := fetchChunkGo fuel (a + 1) rest
      (res.1, 1 * (a + 1) :: res.2)

/-- One chunk fetch: at most 3 attempts starting at attempt index 0. -/
def fetchChunk {α : Type} (resps : List (HttpResp α)) : Option (List α) × List ℕ :=
  fetchChunkGo 3 0 resps

/-- Model of the chunk loop of `ZerodhaSource.fetch` (zerodha.py lines
99-143): every window's candles are accumulated when the chunk result is
truthy (appending an empty or `None` result is a no-op), and the whole
fetch returns `None` only when no candles at all were collected. -/
def fetchStream {α : Type} (chunkResps : List (List (HttpResp α))) : Option (List α) :=
  let all := chunkResps.foldl (fun acc rs => acc ++ ((fetchChunk rs).1.getD [])) []
  if all.isEmpty then none else some all

/-- C6 counterexample: an HTTP 500 on every attempt of the first chunk is
retried with linear back-off (sleeps `[1, 2, 3]`, so it is retried rather
than stopping at once) and then yields `none`, after which the stream
advances to the second chunk and the fetch succeeds — the stream is not
stopped and no failure surfaces, contradicting the claim that any other
non-success response stops the stream for the symbol. -/
theorem zerodha_http_error_not_stream_stop :
    fetchChunk ([.httpFail 500, .httpFail 500, .httpFail 500] : List (HttpResp ℕ)) =
      (none, [1, 2, 3]) ∧
    fetchStream [[.httpFail 500, .httpFail 500, .httpFail 500],
      [.json true [42]]] = some [42] := by
  constructor
  · rfl
  · rfl

/-- C6 amended: HTTP 400 yields the empty no-data marker with no retry
and no sleep; HTTP 429 sleeps `2*(attempt+1)` seconds and retries, up to
3 attempts in total; a transport error and any other non-success HTTP
status sleep `1*(attempt+1)` seconds and retry, up to 3 attempts in
total; an API-level non-success payload yields `none` at once; and a
chunk that resolves to `none` is skipped while the stream advances to
the remaining chunks instead of stopping. -/
theorem zerodha_chunk_retry_semantics {α : Type} :
    (∀ rest : List (HttpResp α), fetchChunk (.http400 :: rest) = (some [], [])) ∧
    (∀ (cs : List α) (rest : List (HttpResp α)),
      fetchChunk (.json true cs :: rest) = (some cs, [])) ∧
    (∀ (cs : List α) (rest : List (HttpResp α)),
      fetchChunk (.json false cs :: rest) = (none, [])) ∧
    (∀ (fuel a : ℕ) (rest : List (HttpResp α)),
      fetchChunkGo (fuel + 1) a (.http429 :: rest) =
        ((fetchChunkGo fuel (a + 1) rest).1,
          2 * (a + 1) :: (fetchChunkGo fuel (a + 1) rest).2)) ∧
    (∀ (fuel a : ℕ) (rest : List (HttpResp α)),
      fetchChunkGo (fuel + 1) a (.transport :: rest) =
        ((fetchChunkGo fuel (a + 1) rest).1,
          1 * (a + 1) :: (fetchChunkGo fuel (a + 1) rest).2)) ∧
    (∀ (fuel a c : ℕ) (rest : List (HttpResp α)),
      fetchChunkGo (fuel + 1) a (.httpFail c :: rest) =
        ((fetchChunkGo fuel (a + 1) rest).1,
          1 * (a + 1) :: (fetchChunkGo fuel (a + 1) rest).2)) ∧
    (fetchChunk ([.http429, .http429, .http429] : List (HttpResp α)) =
      (none, [2, 4, 6])) ∧
    (∀ (chunk : List (HttpResp α)) (rest : List (List (HttpResp α))),
      (fetchChunk chunk).1 = none → fetchStream (chunk :: rest) = fetchStream rest) := by
  refine ⟨fun _ => rfl, fun _ _ => rfl, fun _ _ => rfl, fun _ _ _ => rfl,
    fun _ _ _ => rfl, fun _ _ _ _ => rfl, rfl, ?_⟩
  intro chunk rest h
  simp only [fetchStream, List.foldl_cons, h, Option.getD_none, List.append_nil,
    List.nil_append]

/-- Closed witness for `zerodha_chunk_retry_semantics` at a chunk whose
three attempts all fail with transport errors. -/
theorem zerodha_chunk_retry_semantics_wit :
    (fetchChunk ([.transport, .transport, .transport] : List (HttpResp ℕ))).1 = none ∧
    fetchStream [[.transport, .transport, .transport], [.json true [7]]] =
      fetchStream [[.json true ([7] : List ℕ)]] :=
  ⟨rfl, (zerodha_chunk_retry_semantics (α := ℕ)).2.2.2.2.2.2.2
    [.transport, .transport, .transport] [[.json true [7]]] rfl⟩

/-- Model of the date-window iteration inside `ZerodhaSource.fetch`
(zerodha.py lines 114-126): while `current < end`, the next window is
`[current, min(current + chunk_days, end)]` and iteration resumes at the
day after the window end.  Dates are day ordinals. -/
def chunkWindows (chunkDays : ℕ) (startD endD : ℤ) : List (ℤ × ℤ) :=
  if h : startD < endD then
    (startD, min (startD + chunkDays) endD) ::
      chunkWindows chunkDays (min (startD + chunkDays) endD + 1) endD
  else []
termination_by (endD - startD).toNat
decreasing_by
  simp only [min_def]
  split <;> omega

/-- Model of `DataSource.fetch_chunks` as inherited by `ZerodhaSource`
(sources/base.py lines 33-54): `ZerodhaSource` defines `fetch` and
`_fetch_chunk` but never overrides `fetch_chunks`, so calling it hits the
base-class body, which raises `NotImplementedError`.  A chunk is a frame
plus its window bounds. -/
def zerodhaFetchChunks (α : Type) (symbol : String) (token : ℤ)
    (startD endD : ℤ) : Except String (List (List α × ℤ × ℤ)) :=
  .error "fetch_chunks not implemented for this source"

/-- C5: the only concrete data source never yields a chunk stream — its
inherited `fetch_chunks` raises `NotImplementedError` on every input,
here evaluated at the failing input (RELIANCE, token 738561, a 150-day
range), even though the per-`chunk_days` window iteration the claim
describes does exist inside `ZerodhaSource.fetch` (with `chunk_days` 60
the range [0, 150] splits into three windows). -/
theorem fetch_chunks_not_implemented :
    zerodhaFetchChunks ℕ "RELIANCE" 738561 0 150 =
      .error "fetch_chunks not implemented for this source" ∧
    chunkWindows 60 0 150 = [(0, 60), (61, 121), (122, 150)] := by
  constructor
  · rfl
  · rw [chunkWindows.eq_def]
    norm_num [min_def]
    rw [chunkWindows.eq_def]
    norm_num [min_def]
    rw [chunkWindows.eq_def]
    norm_num [min_def]
    rw [chunkWindows.eq_def]
    norm_num

/-- Python's built-in `round` on a rational value: round half to even
(banker's rounding), as used by `PortfolioManager` for position sizing
(engine/portfolio.py). -/
def pyRound (q : ℚ) : ℤ :=
  if q - ⌊q⌋ < 1 / 2 then ⌊q⌋
  else if 1 / 2 < q - ⌊q⌋ then ⌊q⌋ + 1
  else if ⌊q⌋ % 2 = 0 then ⌊q⌋ else ⌊q⌋ + 1

/-- Position sizing methods of `RiskParams` (engine/portfolio.py). -/
inductive SizingMethod where
  | fixed
  | pct_equity
  | atr_based
  deriving Repr, DecidableEq

/-- Model of `RiskParams` (engine/portfolio.py lines 17-36). -/
structure RiskParams where
  sizing_method : SizingMethod := .fixed
  fixed_quantity : ℚ := 10
  pct_equity : ℚ := 1 / 50
  atr_multiplier : ℚ := 3 / 2
  max_position_pct : ℚ := 1 / 4
  stop_loss_pct : ℚ := 1 / 20
  deriving Repr, DecidableEq

/-- Model of the mutable `Position` record (engine/portfolio.py lines
38-55); the two fields the sizing path reads are tracked exactly. -/
structure Position where
  quantity : ℚ := 0
  avg_entry_price : ℚ := 0
  total_cost : ℚ := 0
  realized_pnl : ℚ := 0
  deriving Repr, DecidableEq

/-- Model of `Position.is_open`: `quantity != 0.0`. -/
def Position.is_open (p : Position) : Prop :=
  p.quantity ≠ 0

instance (p : Position) : Decidable p.is_open := by
  unfold Position.is_open
  infer_instance

/-- Model of `PortfolioManager` state: cash, the set of symbols the
positions dict has entries for (`tracked`), the positions themselves as a
total map whose default is the fresh `Position` that `_get_position`
inserts, and `last_prices`. -/
structure PortfolioState where
  cash : ℚ
  tracked : List String
  positions : String → Position
  last_prices : String → Option ℚ

/-- Model of `_get_position`: ensures the symbol has a dict entry and
returns it.  With a total `positions` map only the key set changes. -/
def getPosition (st : PortfolioState) (sym : String) : PortfolioState × Position :=
  (if sym ∈ st.tracked then st else { st with tracked := sym :: st.tracked },
    st.positions sym)

/-- Model of the `equity` property: cash plus the market value of every
tracked position at its last price (falling back to its average entry
price). -/
def equity (st : PortfolioState) : ℚ :=
  st.cash + (st.tracked.map (fun s =>
    (st.positions s).quantity *
      ((st.last_prices s).getD (st.positions s).avg_entry_price))).sum

/-- Model of `_calculate_quantity` (engine/portfolio.py lines 113-143). -/
def calcQuantity (rp : RiskParams) (eq price : ℚ) : ℚ :=
  match rp.sizing_method with
  | .fixed => rp.fixed_quantity
  | .pct_equity =>
    let allocation := eq * rp.pct_equity
    let qty := if 0 < price then allocation / price else 0
    max 1 (pyRound qty : ℚ)
  | .atr_based =>
    let risk_amount := eq * rp.pct_equity
    let risk_per_share := price * rp.stop_loss_pct
    let qty := if 0 < risk_per_share then risk_amount / risk_per_share else 0
    max 1 (pyRound qty : ℚ)

/-- Model of `_check_max_position_limit` (engine/portfolio.py lines
145-161). -/
def checkMaxPositionLimit (rp : RiskParams) (st : PortfolioState) (sym : String)
    (quantity price : ℚ) : ℚ :=
  let max_alloc := equity st * rp.max_position_pct
  let current_value := (st.positions sym).quantity * price
  let max_additional := max_alloc - current_value
  if max_additional ≤ 0 then 0
  else
    let max_qty := if 0 < price then max_additional / price else 0
    min quantity (max 1 (pyRound max_qty : ℚ))

/-- Model of `OrderEvent` as published by the portfolio. -/
structure OrderEvent where
  time : ℤ
  symbol : String
  order_type : String
  quantity : ℚ
  direction : String
  deriving Repr, DecidableEq

/-- Signal kinds handled by `on_signal`. -/
inductive SignalKind where
  | LONG
  | EXIT
  | SHORT
  deriving Repr, DecidableEq

/-- Model of `PortfolioManager.on_signal` (engine/portfolio.py lines
163-212): looks up (and dict-inserts) the position, reads the last price
with the `0.0` default, sizes and caps LONG orders, emits EXIT and SHORT
orders, and publishes at most one `OrderEvent`.  The handler itself never
mutates cash or position quantities; those change only on fills. -/
def onSignal (rp : RiskParams) (st₀ : PortfolioState) (time : ℤ) (sym : String)
    (kind : SignalKind) : PortfolioState × Option OrderEvent :=
  let st := (getPosition st₀ sym).1
  let position := (getPosition st₀ sym).2
  let price := (st.last_prices sym).getD 0
  match kind with
  | .LONG =>
    if position.is_open then (st, none)
    else
      let qty0 := calcQuantity rp (equity st) price
      let qty1 := checkMaxPositionLimit rp st sym qty0 price
      if 0 < qty1 ∧ 0 < price then
        if qty1 * price > st.cash then
          let qty2 := max 1 ((pyRound (st.cash / price) : ℚ) - 1)
          if qty2 ≤ 0 then (st, none)
          else (st, some ⟨time, sym, "MARKET", qty2, "BUY"⟩)
        else (st, some ⟨time, sym, "MARKET", qty1, "BUY"⟩)
      else (st, none)
  | .EXIT =>
    if position.is_open ∧ 0 < position.quantity then
      (st, some ⟨time, sym, "MARKET", position.quantity, "SELL"⟩)
    else (st, none)
  | .SHORT =>
    if position.is_open then (st, none)
    else
      let qty := calcQuantity rp (equity st) price
      if 0 < qty ∧ 0 < price then (st, some ⟨time, sym, "MARKET", qty, "SELL"⟩)
      else (st, none)

/-- Default risk parameters, as constructed by `RiskParams()`. -/
def defaultRiskParams : RiskParams := {}

theorem getPosition_fst (st : PortfolioState) (sym : String) :
    (getPosition st sym).1.cash = st.cash ∧
    (getPosition st sym).1.positions = st.positions ∧
    (getPosition st sym).1.last_prices = st.last_prices := by
  unfold getPosition
  split <;> exact ⟨rfl, rfl, rfl⟩

/-- C7: the cash cap in the LONG branch can never abandon the order:
the reduced quantity is `max(1.0, round(cash/price) - 1)`, which is
always at least 1, so the `if qty <= 0: return` guard is dead code.
Concretely, with cash 5, a last price of 100 and default (fixed, 10)
sizing, the portfolio publishes a BUY for 1 share costing 100 — instead
of abandoning the order as the claim (and the guard's own intent)
requires, since `round(5/100) - 1 = -1 <= 0`. -/
theorem portfolio_cash_cap_never_abandons :
    (∀ cash price : ℚ, (0 : ℚ) < max 1 ((pyRound (cash / price) : ℚ) - 1)) ∧
    (pyRound ((5 : ℚ) / 100) - 1 ≤ 0) ∧
    (onSignal defaultRiskParams
      { cash := 5, tracked := [], positions := fun _ => {},
        last_prices := fun s => if s = "TEST" then some 100 else none }
      0 "TEST" .LONG).2 =
      some { time := 0, symbol := "TEST", order_type := "MARKET",
             quantity := 1, direction := "BUY" } := by
  refine ⟨?_, by norm_num [pyRound], ?_⟩
  · intro cash price
    exact lt_of_lt_of_le zero_lt_one (le_max_left 1 _)
  · norm_num [onSignal, getPosition, equity, calcQuantity, checkMaxPositionLimit,
      defaultRiskParams, pyRound, Position.is_open]

/-- C10: a LONG or SHORT signal for a symbol with no recorded market
price (so the price defaults to 0.0) publishes no order and leaves cash
and every position quantity unchanged; the signal is silently dropped. -/
theorem signal_without_price_dropped (rp : RiskParams) (st : PortfolioState)
    (time : ℤ) (sym : String) (kind : SignalKind)
    (hnone : st.last_prices sym = none)
    (hkind : kind = .LONG ∨ kind = .SHORT) :
    (onSignal rp st time sym kind).2 = none ∧
    (onSignal rp st time sym kind).1.cash = st.cash ∧
    ∀ s, ((onSignal rp st time sym kind).1.positions s).quantity =
      (st.positions s).quantity := by
  obtain ⟨hc, hp, hl⟩ := getPosition_fst st sym
  rcases hkind with rfl | rfl
  · simp only [onSignal, hl, hnone, Option.getD_none]
    split_ifs with h₁ h₂ h₃ h₄
    · exact ⟨rfl, hc, fun s => by rw [hp]⟩
    · exact absurd h₂.2 (lt_irrefl 0)
    · exact absurd h₂.2 (lt_irrefl 0)
    · exact absurd h₂.2 (lt_irrefl 0)
    · exact ⟨rfl, hc, fun s => by rw [hp]⟩
  · simp only [onSignal, hl, hnone, Option.getD_none]
    split_ifs with h₁ h₂
    · exact ⟨rfl, hc, fun s => by rw [hp]⟩
    · exact absurd h₂.2 (lt_irrefl 0)
    · exact ⟨rfl, hc, fun s => by rw [hp]⟩

/-- Closed witness for `signal_without_price_dropped`: a LONG signal on a
fresh portfolio that has never seen a market event. -/
theorem signal_without_price_dropped_wit :
    (onSignal defaultRiskParams
      { cash := 100000, tracked := [], positions := fun _ => {},
        last_prices := fun _ => none } 0 "X" .LONG).2 = none :=
  (signal_without_price_dropped defaultRiskParams
    { cash := 100000, tracked := [], positions := fun _ => {},
      last_prices := fun _ => none } 0 "X" .LONG rfl (Or.inl rfl)).1

/-- Progress events emitted by `IngestOrchestrator.fetch_symbol`
(orchestrator.py lines 107-174) through the progress tracker. -/
inductive ProgressEvent where
  | startSymbol (sym : String) (total : ℕ)
  | updateSymbol (sym : String) (chunks rows : ℕ)
  | completeSymbol (sym : String) (success : Bool)
  deriving Repr, DecidableEq

/-- Input of a single `fetch_symbol` run: whether the resume check found
the symbol already up to date, the chunk count announced to the tracker,
the chunk frames the source stream yields (these are fetched and written
successfully before any failure), and the exception — if any — raised
while fetching or writing after those chunks.  A chunk frame is a list of
rows abstracted as `α`. -/
structure FetchInput (α : Type) where
  upToDate : Bool
  totalChunks : ℕ
  chunks : List (List α)
  failure : Option String

/-- The chunk loop of `fetch_symbol`: empty chunks are skipped, each
non-empty chunk is written to the sink immediately and produces one
progress update.  Returns the events and the chunks written, in order. -/
def runChunks {α : Type} (sym : String) : List (List α) → List ProgressEvent × List (List α)
  | [] => ([], [])
  | c :: rest =>
    if c.isEmpty then runChunks sym rest
    else
      ((ProgressEvent.updateSymbol sym 1 c.length) :: (runChunks sym rest).1,
        c :: (runChunks sym rest).2)

/-- Model of `IngestOrchestrator.fetch_symbol` (orchestrator.py lines
107-174).  An up-to-date symbol returns success before any progress
event.  Otherwise the symbol is started, the chunk loop runs, and the
`try/except` converts an exception raised while fetching or writing into
`complete_symbol(success=False)` plus a `False` return — the chunks
already written stay written.  Without a failure the symbol completes
with `True`. -/
def fetchSymbol {α : Type} (sym : String) (inp : FetchInput α) :
    Bool × List ProgressEvent × List (List α) :=
  if inp.upToDate then (true, [], [])
  else
    match inp.failure with
    | none =>
      (true, (ProgressEvent.startSymbol sym inp.totalChunks :: (runChunks sym inp.chunks).1)
        ++ [ProgressEvent.completeSymbol sym true], (runChunks sym inp.chunks).2)
    | some _ =>
      (false, (ProgressEvent.startSymbol sym inp.totalChunks :: (runChunks sym inp.chunks).1)
        ++ [ProgressEvent.completeSymbol sym false], (runChunks sym inp.chunks).2)

/-- Model of `IngestOrchestrator.sync` (orchestrator.py lines 176-240):
every `(symbol, input)` pair is processed by its own task, and the result
map records each processed symbol with its own success boolean. -/
def sync {α : Type} (inputs : List (String × FetchInput α)) : List (String × Bool) :=
  inputs.map (fun p => (p.1, (fetchSymbol p.1 p.2).1))

/-- C8: an exception raised while fetching or writing a symbol is caught
inside `fetch_symbol`, which emits `complete_symbol(success=False)` as
its final progress event and returns failure (keeping the chunks already
written); consequently a failed symbol contributes its own `False` entry
to the `sync` result map while every peer symbol is still processed with
its own outcome, and the map covers every processed symbol. -/
theorem orchestrator_failure_isolated {α : Type} (sym : String) (inp : FetchInput α)
    (e : String) (hup : inp.upToDate = false) (hfail : inp.failure = some e) :
    (fetchSymbol sym inp).1 = false ∧
    (fetchSymbol sym inp).2.1.getLast? =
      some (ProgressEvent.completeSymbol sym false) ∧
    (fetchSymbol sym inp).2.2 = (runChunks sym inp.chunks).2 ∧
    (∀ inputs : List (String × FetchInput α),
      sync ((sym, inp) :: inputs) = (sym, false) :: sync inputs) ∧
    (∀ inputs : List (String × FetchInput α),
      (sync inputs).map Prod.fst = inputs.map Prod.fst) := by
  have hfs : fetchSymbol sym inp =
      (false, (ProgressEvent.startSymbol sym inp.totalChunks ::
        (runChunks sym inp.chunks).1) ++ [ProgressEvent.completeSymbol sym false],
        (runChunks sym inp.chunks).2) := by
    rw [fetchSymbol, hup, hfail]
    rfl
  refine ⟨by rw [hfs], ?_, by rw [hfs], ?_, ?_⟩
  · rw [hfs]
    exact List.getLast?_concat _
  · intro inputs
    rw [sync, List.map_cons, hfs]
    rfl
  · intro inputs
    rw [sync, List.map_map]
    rfl

/-- Closed witness for `orchestrator_failure_isolated`: a symbol whose
stream fails after one written chunk, next to a healthy peer. -/
theorem orchestrator_failure_isolated_wit :
    (fetchSymbol "BAD" ⟨false, 2, [[1, 2]], some "boom"⟩).1 = false ∧
    sync [("BAD", (⟨false, 2, [[1, 2]], some "boom"⟩ : FetchInput ℕ)),
      ("GOOD", ⟨false, 1, [[3]], none⟩)] =
      [("BAD", false), ("GOOD", true)] := by
  have h := orchestrator_failure_isolated "BAD"
    (⟨false, 2, [[1, 2]], some "boom"⟩ : FetchInput ℕ) "boom" rfl rfl
  refine ⟨h.1, ?_⟩
  rw [h.2.2.2.1 [("GOOD", ⟨false, 1, [[3]], none⟩)]]
  rfl

/-- Null-propagating binary operation on two nullable cells, as polars
arithmetic and comparisons behave (a null operand yields null). -/
def opt2 {α β γ : Type} (f : α → β → γ) : Option α → Option β → Option γ
  | some a, some b => some (f a b)
  | _, _ => none

/-- Model of `pl.when(p).then(t).otherwise(e)` on one cell under
polars >= 1.0 semantics: a null predicate propagates null. -/
def whenTO {α : Type} (p : Option Bool) (t e : Option α) : Option α :=
  match p with
  | some true => t
  | some false => e
  | none => none

/-- The strategy latch: `signal_trigger.forward_fill().fill_null(0)`. -/
def latch (trigger : List (Option ℚ)) : List ℚ :=
  fillNull 0 (forwardFillFrom none trigger)

/-- Tail of polars `diff`: each cell minus its predecessor. -/
def diffColFrom (prev : ℚ) : List ℚ → List (Option ℚ)
  | [] => []
  | c :: rest => some (c - prev) :: diffColFrom c rest

/-- Model of polars `diff` on a non-null column: first cell null. -/
def diffCol : List ℚ → List (Option ℚ)
  | [] => []
  | c :: rest => none :: diffColFrom c rest

/-- The `gain` column of the RSI pipeline:
`when(change > 0).then(change).otherwise(0)` (null change stays null). -/
def gainCol (change : List (Option ℚ)) : List (Option ℚ) :=
  change.map (fun ch => whenTO (ch.map (fun c => decide (0 < c))) ch (some 0))

/-- The `loss` column: `when(change < 0).then(-change).otherwise(0)`. -/
def lossCol (change : List (Option ℚ)) : List (Option ℚ) :=
  change.map (fun ch =>
    whenTO (ch.map (fun c => decide (c < 0))) (ch.map (fun c => -c)) (some 0))

/-- State-passing core of `ewm_mean(com=..., min_samples=...)` with the
polars defaults `adjust=True` and `ignore_nulls=False`: the weighted
numerator and denominator decay by `ω = 1 - α = com/(com+1)` at every
position (null positions decay the state but contribute nothing and
output null), and the output stays null until `min_samples` non-null
observations have been seen. -/
def ewmGo (ω : ℚ) (minS : ℕ) (num den : ℚ) (cnt : ℕ) :
    List (Option ℚ) → List (Option ℚ)
  | [] => []
  | none :: rest => none :: ewmGo ω minS (num * ω) (den * ω) cnt rest
  | some x :: rest =>
    (if cnt + 1 < minS then none else some ((num * ω + x) / (den * ω + 1))) ::
      ewmGo ω minS (num * ω + x) (den * ω + 1) (cnt + 1) rest

/-- Model of `ewm_mean(com, min_samples)` on a nullable column. -/
def ewmMeanCom (com : ℚ) (minS : ℕ) (xs : List (Option ℚ)) : List (Option ℚ)  :=
  ewmGo (com / (com + 1)) minS 0 0 0 xs

/-- One cell of the `rsi` column:
`(100 - 100/(1 + avg_gain/avg_loss)).fill_nan(50).fill_null(50)`.
At float level `avg_gain/0` with a positive gain is `+inf`, making the
rsi cell exactly 100; `0/0` is NaN, filled with 50; nulls fill with 50;
gains and losses are non-negative so `-inf` cannot arise. -/
def rsiCell (g l : Option ℚ) : ℚ :=
  match g, l with
  | some g, some l =>
    if l = 0 then (if g = 0 then 50 else 100) else 100 - 100 / (1 + g / l)
  | _, _ => 50

/-- The `rsi` column of `RSIStrategy.generate_signals`
(strategies/rsi.py lines 31-55) for a `close` column. -/
def rsiCol (period : ℕ) (close : List ℚ) : List ℚ :=
  let change := diffCol close
  let avg_gain := ewmMeanCom ((period : ℚ) - 1) period (gainCol change)
  let avg_loss := ewmMeanCom ((period : ℚ) - 1) period (lossCol change)
  avg_gain.zipWith rsiCell avg_loss

/-- RSI trigger cell: `when(rsi < oversold).then(1)
.when(rsi > overbought).then(0).otherwise(None)`. -/
def rsiTriggerCell (oversold overbought r : ℚ) : Option ℚ :=
  if r < oversold then some 1 else if overbought < r then some 0 else none

/-- Signal column of `RSIStrategy.generate_signals`
(strategies/rsi.py lines 31-66). -/
def rsiSignal (period : ℕ) (oversold overbought : ℚ) (close : List ℚ) : List ℚ :=
  latch ((rsiCol period close).map (rsiTriggerCell oversold overbought))

/-- Model of polars `rolling_mean(window_size=w)` (default min_samples =
window size): null until the window is full, then the window average. -/
def rollingMean (w : ℕ) (xs : List ℚ) : List (Option ℚ) :=
  (List.range xs.length).map (fun i =>
    if i + 1 < w then none else some (((xs.drop (i + 1 - w)).take w).sum / w))

/-- Signal column of `SMACrossover.generate_signals`
(strategies/sma_cross.py): `when(sma_fast > sma_slow).then(1)
.otherwise(0)` with no forward-fill latch, so warm-up rows (where either
rolling mean is null) carry a null signal under polars >= 1.0. -/
def smaCrossSignal (fastw sloww : ℕ) (close : List ℚ) : List (Option ℚ) :=
  (rollingMean fastw close).zipWith
    (fun a b => whenTO (opt2 (fun x y => decide (y < x)) a b) (some (1 : ℚ)) (some 0))
    (rollingMean sloww close)

/-- Tail recursion of `ewm_mean(span, adjust=False)`. -/
def ewmNoAdjGo (al prev : ℚ) : List ℚ → List ℚ
  | [] => []
  | x :: rest =>
    ((1 - al) * prev + al * x) :: ewmNoAdjGo al ((1 - al) * prev + al * x) rest

/-- Model of `ewm_mean(span=..., adjust=False)` on a non-null column:
`y[0] = x[0]`, `y[i] = (1-α) y[i-1] + α x[i]` with `α = 2/(span+1)`. -/
def ewmMeanSpan (span : ℕ) : List ℚ → List ℚ
  | [] => []
  | x :: rest => x :: ewmNoAdjGo (2 / ((span : ℚ) + 1)) x rest

/-- Signal column of `MACDStrategy.generate_signals`
(strategies/macd.py). -/
def macdSignal (fastp slowp sigp : ℕ) (close : List ℚ) : List ℚ :=
  let macd := (ewmMeanSpan fastp close).zipWith (· - ·) (ewmMeanSpan slowp close)
  let sig := ewmMeanSpan sigp macd
  latch (macd.zipWith (fun m s =>
    if s < m then some (1 : ℚ) else if m < s then some 0 else none) sig)

/-- Model of `rolling_std(window_size=w)` up to the square root: the
sample variance (ddof = 1) of each full window.  The square root is
irrational in general, so the Bollinger model takes the square-root map
as a parameter; no theorem depends on its values. -/
def rollingVar (w : ℕ) (xs : List ℚ) : List (Option ℚ) :=
  (List.range xs.length).map (fun i =>
    if i + 1 < w then none
    else
      some ((((xs.drop (i + 1 - w)).take w).map
        (fun x => (x - ((xs.drop (i + 1 - w)).take w).sum / w) ^ 2)).sum /
          ((w : ℚ) - 1)))

/-- Bollinger trigger cell: `when(close < bb_lower).then(1)
.when(close > bb_upper).then(0).otherwise(None)`. -/
def bollTriggerCell (c : ℚ) (lo up : Option ℚ) : Option ℚ :=
  whenTO (lo.map (fun l => decide (c < l))) (some 1)
    (whenTO (up.map (fun u => decide (u < c))) (some 0) none)

/-- Signal column of `BollingerBandsStrategy.generate_signals`
(strategies/bollinger.py), parameterized by the square-root map used for
`bb_std`. -/
def bollingerSignal (sqrtFn : ℚ → ℚ) (period : ℕ) (k : ℚ) (close : List ℚ) : List ℚ :=
  let mid := rollingMean period close
  let sd := (rollingVar period close).map (Option.map sqrtFn)
  let up := mid.zipWith (opt2 (fun m s => m + s * k)) sd
  let lo := mid.zipWith (opt2 (fun m s => m - s * k)) sd
  latch (close.zipWith (fun c (p : Option ℚ × Option ℚ) => bollTriggerCell c p.1 p.2)
    (lo.zip up))

/-- Day-window label of `group_by_dynamic(every="1d")` for a timestamp in
minutes: truncation to the start of the day (timestamps are
non-negative, where floor and truncating division agree). -/
def dayStart (t : ℤ) : ℤ := 1440 * (t / 1440)

/-- Model of `resample_data(df, "1d")` restricted to the columns the MTF
trend strategy reads: sort by timestamp, group consecutive rows of the
same day, and emit one `(day label, last close)` bar per non-empty day
(engine/mtf_utils.py lines 3-32; `close` aggregates with `last`). -/
def resampleDailyClose (rows : List (ℤ × ℚ)) : List (ℤ × ℚ) :=
  ((sortByTs rows).splitBy (fun a b => decide (dayStart a.1 = dayStart b.1))).filterMap
    (fun g => match g.head?, g.getLast? with
      | some f, some l => some (dayStart f.1, l.2)
      | _, _ => none)

/-- Kleene conjunction of two nullable booleans, as polars `&`. -/
def kleeneAnd : Option Bool → Option Bool → Option Bool
  | some false, _ => some false
  | _, some false => some false
  | some true, some true => some true
  | _, _ => none

/-- MTF trend trigger cell:
`when((rsi < 30) & bullish_trend_htf).then(1)
.when(rsi > 70).then(0).otherwise(None)`; the rsi operand is non-null. -/
def mtfTriggerCell (r : ℚ) (t : Option Bool) : Option ℚ :=
  whenTO (kleeneAnd (some (decide (r < 30))) t) (some 1)
    (whenTO (some (decide (70 < r))) (some 0) none)

/-- Signal column of `MTFTrendFollowingStrategy.generate_signals`
(strategies/mtf_trend_following.py lines 12-69): resample to daily bars,
compute the daily SMA-50 > SMA-200 trend, broadcast it back to the
minute rows through the backward as-of join of `merge_mtf` (no shift
here), compute the minute RSI(14), and latch the combined trigger. -/
def mtfTrendSignal (rows : List (ℤ × ℚ)) : List ℚ :=
  let daily := resampleDailyClose rows
  let dcs := daily.map Prod.snd
  let trend := (rollingMean 50 dcs).zipWith (opt2 (fun a b => decide (b < a)))
    (rollingMean 200 dcs)
  let drows := (daily.map Prod.fst).zip trend
  let trendM := rows.map (fun r => (asofLookup drows r.1).join)
  let rsi := rsiCol 14 (rows.map Prod.snd)
  latch (rsi.zipWith mtfTriggerCell trendM)

/-- The three admissible trigger cell values: long, flat, or null. -/
def triVal (c : Option ℚ) : Prop :=
  c = some 1 ∨ c = some 0 ∨ c = none

theorem whenTO_tri (p q : Option Bool) :
    triVal (whenTO p (some 1) (whenTO q (some 0) none)) := by
  rcases p with - | b
  · exact Or.inr (Or.inr rfl)
  · cases b
    · rcases q with - | c
      · exact Or.inr (Or.inr rfl)
      · cases c
        · exact Or.inr (Or.inr rfl)
        · exact Or.inr (Or.inl rfl)
    · exact Or.inl rfl

theorem forwardFillFrom_tri (carry : Option ℚ) (xs : List (Option ℚ))
    (hc : triVal carry) (hxs : ∀ c ∈ xs, triVal c) :
    ∀ c ∈ forwardFillFrom carry xs, triVal c := by
  induction xs generalizing carry with
  | nil =>
    intro c hcm
    exact absurd hcm (List.not_mem_nil c)
  | cons x rest ih =>
    intro c hcm
    have hx : triVal x := hxs x (List.mem_cons_self _ _)
    have hcell : triVal (x.orElse (fun _ => carry)) := by
      rcases hx with rfl | rfl | rfl
      · exact Or.inl rfl
      · exact Or.inr (Or.inl rfl)
      · exact hc
    simp only [forwardFillFrom] at hcm
    rcases List.mem_cons.mp hcm with rfl | hmem
    · exact hcell
    · exact ih _ hcell (fun d hd => hxs d (List.mem_cons_of_mem _ hd)) c hmem

theorem latch_mem (trigger : List (Option ℚ))
    (htri : ∀ c ∈ trigger, triVal c) :
    ∀ v ∈ latch trigger, v = 0 ∨ v = 1 := by
  intro v hv
  obtain ⟨o, ho, rfl⟩ := List.mem_map.mp hv
  have := forwardFillFrom_tri none trigger (Or.inr (Or.inr rfl)) htri o ho
  rcases this with rfl | rfl | rfl
  · exact Or.inr rfl
  · exact Or.inl rfl
  · exact Or.inl rfl

theorem mem_zipWith_all {α β γ : Type} (f : α → β → γ) (P : γ → Prop)
    (h : ∀ x y, P (f x y)) :
    ∀ (l₁ : List α) (l₂ : List β), ∀ c ∈ List.zipWith f l₁ l₂, P c := by
  intro l₁
  induction l₁ with
  | nil =>
    intro l₂ c hc
    simp at hc
  | cons x rest ih =>
    intro l₂ c hc
    cases l₂ with
    | nil => simp at hc
    | cons y r₂ =>
      rcases List.mem_cons.mp hc with rfl | hmem
      · exact h x y
      · exact ih r₂ c hmem

theorem forwardFillFrom_length {α : Type} (carry : Option α) (xs : List (Option α)) :
    (forwardFillFrom carry xs).length = xs.length := by
  induction xs generalizing carry with
  | nil => rfl
  | cons x rest ih => simp [forwardFillFrom, ih]

theorem latch_length (trigger : List (Option ℚ)) :
    (latch trigger).length = trigger.length := by
  simp [latch, fillNull, forwardFillFrom_length]

theorem diffColFrom_length (prev : ℚ) (xs : List ℚ) :
    (diffColFrom prev xs).length = xs.length := by
  induction xs generalizing prev with
  | nil => rfl
  | cons x rest ih => simp [diffColFrom, ih]

theorem diffCol_length (xs : List ℚ) : (diffCol xs).length = xs.length := by
  cases xs with
  | nil => rfl
  | cons x rest => simp [diffCol, diffColFrom_length]

theorem ewmGo_length (ω : ℚ) (minS : ℕ) (num den : ℚ) (cnt : ℕ)
    (xs : List (Option ℚ)) :
    (ewmGo ω minS num den cnt xs).length = xs.length := by
  induction xs generalizing num den cnt with
  | nil => rfl
  | cons x rest ih =>
    cases x with
    | none => simp [ewmGo, ih]
    | some v => simp [ewmGo, ih]

theorem ewmMeanCom_length (com : ℚ) (minS : ℕ) (xs : List (Option ℚ)) :
    (ewmMeanCom com minS xs).length = xs.length := by
  simp [ewmMeanCom, ewmGo_length]

theorem rsiCol_length (period : ℕ) (close : List ℚ) :
    (rsiCol period close).length = close.length := by
  simp [rsiCol, List.length_zipWith, ewmMeanCom_length, gainCol, lossCol,
    diffCol_length]

theorem rollingMean_length (w : ℕ) (xs : List ℚ) :
    (rollingMean w xs).length = xs.length := by
  simp [rollingMean]

theorem ewmNoAdjGo_length (al prev : ℚ) (xs : List ℚ) :
    (ewmNoAdjGo al prev xs).length = xs.length := by
  induction xs generalizing prev with
  | nil => rfl
  | cons x rest ih => simp [ewmNoAdjGo, ih]

theorem ewmMeanSpan_length (span : ℕ) (xs : List ℚ) :
    (ewmMeanSpan span xs).length = xs.length := by
  cases xs with
  | nil => rfl
  | cons x rest => simp [ewmMeanSpan, ewmNoAdjGo_length]

theorem rollingVar_length (w : ℕ) (xs : List ℚ) :
    (rollingVar w xs).length = xs.length := by
  simp [rollingVar]

/-- C9 counterexample: `SMACrossover.generate_signals` on a single-row
frame (default windows 50/200) emits a null signal cell — a value
outside `{0, 1}` — because the warm-up comparison `sma_fast > sma_slow`
has null operands and the strategy applies no forward-fill latch. -/
theorem sma_warmup_null_signal :
    smaCrossSignal 50 200 [100] = [none] ∧
    (none : Option ℚ) ≠ some 0 ∧ (none : Option ℚ) ≠ some 1 := by
  refine ⟨rfl, ?_, ?_⟩ <;> simp

/-- C9 amended: every strategy in the strategy set returns a signal
column of the input frame's length; the four strategies that latch their
trigger through `forward_fill().fill_null(0)` (RSI, MACD, Bollinger,
MTF trend following) emit only values in `{0, 1}`; `SMACrossover`, which
has no latch, emits values in `{0, 1, null}`, with null on warm-up rows
where a rolling mean is not yet defined. -/
theorem strategy_signal_contract :
    (∀ (period : ℕ) (oversold overbought : ℚ) (close : List ℚ),
      (rsiSignal period oversold overbought close).length = close.length ∧
      ∀ v ∈ rsiSignal period oversold overbought close, v = 0 ∨ v = 1) ∧
    (∀ (fastp slowp sigp : ℕ) (close : List ℚ),
      (macdSignal fastp slowp sigp close).length = close.length ∧
      ∀ v ∈ macdSignal fastp slowp sigp close, v = 0 ∨ v = 1) ∧
    (∀ (sqrtFn : ℚ → ℚ) (period : ℕ) (k : ℚ) (close : List ℚ),
      (bollingerSignal sqrtFn period k close).length = close.length ∧
      ∀ v ∈ bollingerSignal sqrtFn period k close, v = 0 ∨ v = 1) ∧
    (∀ rows : List (ℤ × ℚ),
      (mtfTrendSignal rows).length = rows.length ∧
      ∀ v ∈ mtfTrendSignal rows, v = 0 ∨ v = 1) ∧
    (∀ (fastw sloww : ℕ) (close : List ℚ),
      (smaCrossSignal fastw sloww close).length = close.length ∧
      ∀ c ∈ smaCrossSignal fastw sloww close, triVal c) := by
  refine ⟨?_, ?_, ?_, ?_, ?_⟩
  · intro period oversold overbought close
    constructor
    · simp [rsiSignal, latch_length, rsiCol_length]
    · refine latch_mem _ ?_
      intro c hc
      obtain ⟨r, -, rfl⟩ := List.mem_map.mp hc
      unfold rsiTriggerCell triVal
      split_ifs
      · exact Or.inl rfl
      · exact Or.inr (Or.inl rfl)
      · exact Or.inr (Or.inr rfl)
  · intro fastp slowp sigp close
    constructor
    · simp [macdSignal, latch_length, List.length_zipWith, ewmMeanSpan_length]
    · refine latch_mem _ ?_
      refine mem_zipWith_all _ triVal ?_ _ _
      intro m s
      unfold triVal
      split_ifs
      · exact Or.inl rfl
      · exact Or.inr (Or.inl rfl)
      · exact Or.inr (Or.inr rfl)
  · intro sqrtFn period k close
    constructor
    · simp [bollingerSignal, latch_length, List.length_zipWith, List.length_zip,
        rollingMean_length, rollingVar_length]
    · refine latch_mem _ ?_
      refine mem_zipWith_all _ triVal ?_ _ _
      intro c p
      exact whenTO_tri _ _
  · intro rows
    constructor
    · simp [mtfTrendSignal, latch_length, List.length_zipWith, rsiCol_length]
    · refine latch_mem _ ?_
      refine mem_zipWith_all _ triVal ?_ _ _
      intro r t
      exact whenTO_tri _ _
  · intro fastw sloww close
    constructor
    · simp [smaCrossSignal, List.length_zipWith, rollingMean_length]
    · refine mem_zipWith_all _ triVal ?_ _ _
      intro a b
      rcases h : opt2 (fun x y => decide (y < x)) a b with - | c
      · exact Or.inr (Or.inr (by simp [whenTO, h]))
      · cases c
        · exact Or.inr (Or.inl (by simp [whenTO, h]))
        · exact Or.inl (by simp [whenTO, h])

/-- Closed witness for `strategy_signal_contract`: the RSI signal on a
one-row frame has length 1 and its single cell (0) is in `{0, 1}`. -/
theorem strategy_signal_contract_wit :
    (rsiSignal 14 30 70 [100]).length = 1 ∧ ((0 : ℚ) = 0 ∨ (0 : ℚ) = 1) :=
  ⟨(strategy_signal_contract.1 14 30 70 [100]).1,
    (strategy_signal_contract.1 14 30 70 [100]).2 0 (by
      show (0 : ℚ) ∈ rsiSignal 14 30 70 [100]
      rw [show rsiSignal 14 30 70 [100] = [0] from rfl]
      exact List.mem_singleton.mpr rfl)⟩

end Hermes
